import Mathlib

/-!
Verification of the nostress key codec (`nostress/core/crypto.py` and
`nostress/core/models.py`).

Bytes are modelled as `Nat` values (meaningful when `< 256`), byte strings
as `List Nat`, and Python strings as `List Char`.  Python exceptions are
modelled by the sum type `NostressErr` together with `Except`.
-/

/-- Errors raised by the nostress core, mirroring `nostress/exceptions.py`
plus the plain Python `ValueError` (raised by `to_format` on an
unsupported tag) and the pydantic validation failure produced when a
`field_validator` raises `ValueError`. -/
inductive NostressErr where
  | keyFormatError
  | validationError
  | valueError
  | cryptographicError
deriving DecidableEq, Repr

deriving instance DecidableEq for Except

/-! ## Python hex primitives

`bytes.hex()` produces two lowercase hex digits per byte.
`bytes.fromhex(s)` skips ASCII whitespace between byte pairs (but not
inside a pair) and fails on any other non-hex character or on a dangling
single digit; this is CPython's documented behaviour since 3.7. -/

/-- Lowercase hex digit character for a value `< 16` (as used by
Python's `bytes.hex()`). -/
def hexDigitToChar (d : Nat) : Char :=
  "0123456789abcdef".toList.getD d '0'

/-- Encoding of a byte string as lowercase hex, two digits per byte:
Python `bytes.hex()`. -/
def bytesHex (bs : List Nat) : List Char :=
  bs.flatMap (fun b => [hexDigitToChar (b / 16), hexDigitToChar (b % 16)])

/-- Numeric value of a hex digit character, accepting both cases;
`none` for non-hex characters. -/
def hexCharVal (c : Char) : Option Nat :=
  if '0' ≤ c ∧ c ≤ '9' then some (c.toNat - '0'.toNat)
  else if 'a' ≤ c ∧ c ≤ 'f' then some (c.toNat - 'a'.toNat + 10)
  else if 'A' ≤ c ∧ c ≤ 'F' then some (c.toNat - 'A'.toNat + 10)
  else none

/-- ASCII whitespace, as skipped by CPython's `bytes.fromhex`. -/
def isASCIISpace (c : Char) : Bool :=
  c = ' ' ∨ c = '\t' ∨ c = '\n' ∨ c = '\x0b' ∨ c = '\x0c' ∨ c = '\r'

/-- Python `bytes.fromhex`: ASCII whitespace may separate byte pairs;
each byte is two adjacent hex digits; anything else fails (`none`
models the `ValueError`). -/
def bytesFromHex : List Char → Option (List Nat)
  | [] => some []
  | c :: rest =>
    if isASCIISpace c then bytesFromHex rest
    else
      match hexCharVal c with
      | none => none
      | some hi =>
        match rest with
        | [] => none
        | c2 :: rest2 =>
          match hexCharVal c2 with
          | none => none
          | some lo =>
            match bytesFromHex rest2 with
            | none => none
            | some bs => some ((hi * 16 + lo) :: bs)

/-! ## `nostress/core/crypto.py`: hex conversions and validators -/

/-- `private_key_to_hex` (crypto.py): `private_key.hex()`. -/
def private_key_to_hex (private_key : List Nat) : List Char :=
  bytesHex private_key

/-- `public_key_to_hex` (crypto.py): `public_key.hex()`. -/
def public_key_to_hex (public_key : List Nat) : List Char :=
  bytesHex public_key

/-- `validate_private_key_hex` (crypto.py): length must be 64 and
`bytes.fromhex` must not raise; any `ValueError` is caught and turned
into `False`. -/
def validate_private_key_hex (hex_key : List Char) : Bool :=
  hex_key.length == 64 && (bytesFromHex hex_key).isSome

/-- `validate_public_key_hex` (crypto.py): identical body to
`validate_private_key_hex`. -/
def validate_public_key_hex (hex_key : List Char) : Bool :=
  hex_key.length == 64 && (bytesFromHex hex_key).isSome

/-! ## External base58 codec (the `base58` library, bitcoin alphabet)

`private_key_to_bech32` / `public_key_to_bech32` delegate to
`base58.b58encode` / `base58.b58decode`.  These model the bitcoin-
alphabet base58 codec the library implements: leading zero bytes map
to leading `'1'` characters, the remainder is the big-endian integer
written in base 58.  The library's `b58decode` first strips trailing
whitespace (`v.rstrip()` on the string, Python's Unicode whitespace
set) and then fails (`none`, modelling the raised exception) on any
remaining character outside the alphabet — a non-ASCII character also
raises, at the `encode('ascii')` step, and is likewise outside the
alphabet, so one failure case covers both. -/

/-- The bitcoin base58 alphabet (58 characters). -/
def b58Alphabet : List Char :=
  "123456789ABCDEFGHJKLMNPQRSTUVWXYZabcdefghijkmnopqrstuvwxyz".toList

/-- Character for a base58 digit `< 58`. -/
def b58CharOfDigit (d : Nat) : Char :=
  b58Alphabet.getD d '1'

/-- Position of a character in an alphabet, or `none`. -/
def alphaIndex : List Char → Nat → Char → Option Nat
  | [], _, _ => none
  | a :: as, i, c => if c = a then some i else alphaIndex as (i + 1) c

/-- Base58 digit value of a character, `none` outside the alphabet. -/
def b58DigitOfChar (c : Char) : Option Nat :=
  alphaIndex b58Alphabet 0 c

/-- Big-endian byte-string value: Python `int.from_bytes(v, "big")`. -/
def bytesToNatBE (bs : List Nat) : Nat :=
  bs.foldl (fun a b => a * 256 + b) 0

/-- Least-significant-first base-`B` digits of `n`, with explicit fuel
(any fuel `≥ n` is enough); agrees with `Nat.digits` for `2 ≤ B`. -/
def natDigitsLEAux (B : Nat) : Nat → Nat → List Nat
  | 0, _ => []
  | fuel + 1, n => if n = 0 then [] else n % B :: natDigitsLEAux B fuel (n / B)

/-- Minimal big-endian byte string of a natural number (empty for 0),
as produced by the base58 library's decode loop. -/
def natToBytesBE (n : Nat) : List Nat :=
  (natDigitsLEAux 256 n n).reverse

/-- Base58 digit string of a natural number, most significant digit
first (empty for 0), as produced by `b58encode_int`. -/
def natToB58Digits (n : Nat) : List Nat :=
  (natDigitsLEAux 58 n n).reverse

/-- `base58.b58encode`: count and strip leading zero bytes, encode the
remaining big-endian value in base 58, and prepend one `'1'` per
stripped zero byte. -/
def b58encode (bs : List Nat) : List Char :=
  List.replicate (bs.length - (bs.dropWhile (fun b => b == 0)).length) '1'
    ++ (natToB58Digits
      (bytesToNatBE (bs.dropWhile (fun b => b == 0)))).map b58CharOfDigit

/-- Digit values of a base58 string; `none` if any character is
outside the alphabet. -/
def b58DigitsOfChars : List Char → Option (List Nat)
  | [] => some []
  | c :: cs =>
    match b58DigitOfChar c, b58DigitsOfChars cs with
    | some d, some ds => some (d :: ds)
    | _, _ => none

/-- Value of a most-significant-first base58 digit list. -/
def natOfB58Digits (ds : List Nat) : Nat :=
  ds.foldl (fun a d => a * 58 + d) 0

/-- Python's Unicode whitespace set, as recognised by `str.rstrip()`
(and `str.isspace()`). -/
def isPyWhitespace (c : Char) : Bool :=
  (0x9 ≤ c.toNat ∧ c.toNat ≤ 0xd) ∨ (0x1c ≤ c.toNat ∧ c.toNat ≤ 0x1f) ∨
    c.toNat = 0x20 ∨ c.toNat = 0x85 ∨ c.toNat = 0xa0 ∨ c.toNat = 0x1680 ∨
    (0x2000 ≤ c.toNat ∧ c.toNat ≤ 0x200a) ∨ c.toNat = 0x2028 ∨
    c.toNat = 0x2029 ∨ c.toNat = 0x202f ∨ c.toNat = 0x205f ∨
    c.toNat = 0x3000

/-- Python `str.rstrip()` with no argument: remove trailing whitespace. -/
def pyRstrip (s : List Char) : List Char :=
  (s.reverse.dropWhile isPyWhitespace).reverse

/-- `base58.b58decode`: strip trailing whitespace (`v.rstrip()`), then
strip leading `'1'` characters, decode the rest as a base-58
big-endian integer, convert it to its minimal big-endian byte string,
and prepend one zero byte per stripped `'1'` (lengths are taken after
the whitespace strip). -/
def b58decode (s : List Char) : Option (List Nat) :=
  match b58DigitsOfChars ((pyRstrip s).dropWhile (fun c => c == '1')) with
  | none => none
  | some ds =>
    some (List.replicate ((pyRstrip s).length -
        ((pyRstrip s).dropWhile (fun c => c == '1')).length) 0
      ++ natToBytesBE (natOfB58Digits ds))

/-! ## `nostress/core/crypto.py`: pseudo-bech32 conversions -/

/-- `private_key_to_bech32` (crypto.py):
`"nsec" + base58.b58encode(private_key)`.  Encoding of a byte string
cannot raise, so the wrapped `CryptographicError` path is dead and the
function is total. -/
def private_key_to_bech32 (private_key : List Nat) : List Char :=
  "nsec".toList ++ b58encode private_key

/-- `public_key_to_bech32` (crypto.py):
`"npub" + base58.b58encode(public_key)`. -/
def public_key_to_bech32 (public_key : List Nat) : List Char :=
  "npub".toList ++ b58encode public_key

/-- `validate_bech32_key` (crypto.py): the string must start with the
expected four-character tag (`pfx`), and the remainder must base58
decode to exactly 32 bytes; every exception is caught and turned into
`False`. -/
def validate_bech32_key (bech32_key : List Char) (pfx : List Char) : Bool :=
  pfx.isPrefixOf bech32_key &&
    match b58decode (bech32_key.drop pfx.length) with
    | some decoded => decoded.length == 32
    | none => false

/-! ## External elliptic-curve primitive (secp256k1)

`derive_public_key` delegates to the `cryptography` library:
`ec.derive_private_key(k, SECP256K1())` rejects (with `ValueError`) any
scalar outside `[1, order)`, and `public_bytes(X962, UncompressedPoint)`
serialises the public point as `0x04 ‖ X (32 bytes, big endian) ‖ Y`;
`derive_public_key` keeps bytes 1..32, the x-coordinate.  The curve
group law is modelled with the textbook affine formulas over the prime
field of secp256k1 and a double-and-add ladder. -/

/-- The secp256k1 field prime `p = 2^256 - 2^32 - 977`. -/
def secpP : Nat :=
  115792089237316195423570985008687907853269984665640564039457584007908834671663

/-- The secp256k1 group order `n`. -/
def secpN : Nat :=
  115792089237316195423570985008687907852837564279074904382605163141518161494337

/-- x-coordinate of the secp256k1 generator. -/
def secpGx : Nat :=
  55066263022277343669578718895168534326250603453777594175500187360389116729240

/-- y-coordinate of the secp256k1 generator. -/
def secpGy : Nat :=
  32670510020758816978083085130507043184471273380659243275938904335757337482424

/-- Square-and-multiply modular exponentiation with explicit fuel
(enough fuel for every exponent below `2^fuel`). -/
def powModAux : Nat → Nat → Nat → Nat → Nat
  | 0, _, _, m => 1 % m
  | fuel + 1, b, e, m =>
    if e = 0 then 1 % m
    else
      let r := powModAux fuel (b * b % m) (e / 2) m
      if e % 2 = 1 then r * b % m else r

/-- Modular inverse in the secp256k1 field, via Fermat's little
theorem (`p` is prime): `a^(p-2) mod p`. -/
def modInvP (a : Nat) : Nat :=
  powModAux 256 (a % secpP) (secpP - 2) secpP

/-- Subtraction in the secp256k1 field. -/
def fsub (a b : Nat) : Nat :=
  (a % secpP + secpP - b % secpP) % secpP

/-- A point of the secp256k1 curve: the point at infinity or an affine
point with coordinates reduced mod `p`. -/
inductive ECPoint where
  | inf
  | affine (x y : Nat)
deriving DecidableEq, Repr

/-- Affine point doubling on secp256k1 (`a = 0`, so the tangent slope
is `3x² / 2y`). -/
def pointDouble : ECPoint → ECPoint
  | .inf => .inf
  | .affine x y =>
    if y % secpP = 0 then .inf
    else
      let lam := 3 * x * x % secpP * modInvP (2 * y % secpP) % secpP
      let xr := fsub (fsub (lam * lam) x) x
      .affine xr (fsub (lam * fsub x xr) y)

/-- Affine point addition on secp256k1. -/
def pointAdd : ECPoint → ECPoint → ECPoint
  | .inf, q => q
  | p, .inf => p
  | .affine x1 y1, .affine x2 y2 =>
    if x1 % secpP = x2 % secpP then
      if (y1 + y2) % secpP = 0 then .inf
      else pointDouble (.affine x1 y1)
    else
      let lam := fsub y2 y1 * modInvP (fsub x2 x1) % secpP
      let xr := fsub (fsub (lam * lam) x1) x2
      .affine xr (fsub (lam * fsub x1 xr) y1)

/-- Most-significant-bit-first double-and-add ladder with explicit
fuel; `256` bits of fuel cover every scalar below the group order. -/
def scalarMulAux : Nat → Nat → ECPoint → ECPoint
  | 0, _, _ => .inf
  | fuel + 1, k, p =>
    if k = 0 then .inf
    else
      let q := pointDouble (scalarMulAux fuel (k / 2) p)
      if k % 2 = 1 then pointAdd q p else q

/-- Scalar multiplication `k·P` on secp256k1 for `k < 2^256`. -/
def scalarMul (k : Nat) (p : ECPoint) : ECPoint :=
  scalarMulAux 256 k p

/-- The secp256k1 generator point. -/
def secpG : ECPoint :=
  .affine secpGx secpGy

/-- Fixed-width 32-byte big-endian serialisation, as used for each
coordinate inside the X9.62 uncompressed point encoding. -/
def toBytesBE32 (n : Nat) : List Nat :=
  (List.range 32).map (fun i => n / 256 ^ (31 - i) % 256)

/-- The 32-byte x-coordinate extracted from the X9.62 uncompressed
encoding (`0x04 ‖ X ‖ Y` with bytes 1..32 kept).  The library never
serialises the point at infinity here because scalars in `[1, order)`
produce finite points; that unreachable case is mapped to 32 zero
bytes to keep the model total. -/
def pointXBytes : ECPoint → List Nat
  | .inf => List.replicate 32 0
  | .affine x _ => toBytesBE32 x

/-- `derive_public_key` (crypto.py): interpret the input bytes as a
big-endian integer, derive the secp256k1 public point, and return the
32-byte x-coordinate; every exception — in particular the library's
rejection of scalars outside `[1, order)` — is caught and re-raised as
`CryptographicError`. -/
def derive_public_key (private_key : List Nat) : Except NostressErr (List Nat) :=
  let k := bytesToNatBE private_key
  if 1 ≤ k ∧ k < secpN then
    .ok (pointXBytes (scalarMul k secpG))
  else
    .error .cryptographicError

/-- `generate_keypair` (crypto.py), with the secure random draw of
`generate_private_key` made explicit as the `rand` argument: returns
the drawn private key together with its derived public key. -/
def generate_keypair (rand : List Nat) : Except NostressErr (List Nat × List Nat) := do
  let pub ← derive_public_key rand
  .ok (rand, pub)

/-! ## `nostress/core/models.py`

Pydantic models become structures with smart constructors returning
`Except`: a `field_validator` raising `ValueError` becomes
`NostressErr.validationError`; any other exception raised inside a
validator (here `CryptographicError` from key derivation) propagates
unchanged, exactly as in pydantic v2. -/

/-- `KeyFormat` (models.py): the closed enumeration of output formats. -/
inductive KeyFormat where
  | hex
  | bech32
  | both
deriving DecidableEq, Repr

/-- `NostrPrivateKey` (models.py): a raw 32-byte private key. -/
structure NostrPrivateKey where
  raw : List Nat
deriving DecidableEq, Repr

/-- `NostrPublicKey` (models.py): a raw 32-byte public key. -/
structure NostrPublicKey where
  raw : List Nat
deriving DecidableEq, Repr

/-- Construction of `NostrPrivateKey`, running the `raw` field
validator: the value must be exactly 32 bytes (the `isinstance` check
cannot fail in the model, where `raw` is always a byte string). -/
def mkNostrPrivateKey (raw : List Nat) : Except NostressErr NostrPrivateKey :=
  if raw.length = 32 then .ok ⟨raw⟩ else .error .validationError

/-- Construction of `NostrPublicKey`, running the `raw` field
validator (exactly 32 bytes). -/
def mkNostrPublicKey (raw : List Nat) : Except NostressErr NostrPublicKey :=
  if raw.length = 32 then .ok ⟨raw⟩ else .error .validationError

/-- `NostrPrivateKey.to_format` (models.py): dispatch on the format
tag; the `else` branch raises a plain `ValueError`, and `both` — not
being `HEX` or `BECH32` — falls into it. -/
def NostrPrivateKey.to_format (k : NostrPrivateKey) :
    KeyFormat → Except NostressErr (List Char)
  | .hex => .ok (private_key_to_hex k.raw)
  | .bech32 => .ok (private_key_to_bech32 k.raw)
  | .both => .error .valueError

/-- `NostrPublicKey.to_format` (models.py): same dispatch as on the
private side. -/
def NostrPublicKey.to_format (k : NostrPublicKey) :
    KeyFormat → Except NostressErr (List Char)
  | .hex => .ok (public_key_to_hex k.raw)
  | .bech32 => .ok (public_key_to_bech32 k.raw)
  | .both => .error .valueError

/-- `NostrPrivateKey.from_hex` (models.py): `KeyFormatError` when
`validate_private_key_hex` rejects the string, otherwise
`cls(raw=bytes.fromhex(hex_key))` — whose field validator may still
reject the decoded bytes.  (`bytesFromHex` cannot return `none` once
validation has passed.) -/
def NostrPrivateKey.from_hex (hex_key : List Char) :
    Except NostressErr NostrPrivateKey :=
  if validate_private_key_hex hex_key then
    match bytesFromHex hex_key with
    | some bs => mkNostrPrivateKey bs
    | none => .error .valueError
  else
    .error .keyFormatError

/-- `NostrPublicKey.from_hex` (models.py). -/
def NostrPublicKey.from_hex (hex_key : List Char) :
    Except NostressErr NostrPublicKey :=
  if validate_public_key_hex hex_key then
    match bytesFromHex hex_key with
    | some bs => mkNostrPublicKey bs
    | none => .error .valueError
  else
    .error .keyFormatError

/-- `NostrPrivateKey.from_bech32` (models.py): `KeyFormatError` when
`validate_bech32_key(bech32_key, "nsec")` rejects the string,
otherwise base58-decode the remainder after the four-character tag and
construct the key.  (`b58decode` cannot return `none` once validation
has passed.) -/
def NostrPrivateKey.from_bech32 (bech32_key : List Char) :
    Except NostressErr NostrPrivateKey :=
  if validate_bech32_key bech32_key "nsec".toList then
    match b58decode (bech32_key.drop 4) with
    | some bs => mkNostrPrivateKey bs
    | none => .error .valueError
  else
    .error .keyFormatError

/-- `NostrPublicKey.from_bech32` (models.py): as the private-key
variant, with the `"npub"` tag. -/
def NostrPublicKey.from_bech32 (bech32_key : List Char) :
    Except NostressErr NostrPublicKey :=
  if validate_bech32_key bech32_key "npub".toList then
    match b58decode (bech32_key.drop 4) with
    | some bs => mkNostrPublicKey bs
    | none => .error .valueError
  else
    .error .keyFormatError

/-- `NostrKeypair` (models.py): an owning private/public pair. -/
structure NostrKeypair where
  private_key : NostrPrivateKey
  public_key : NostrPublicKey
deriving DecidableEq, Repr

/-- Construction of `NostrKeypair`, running the
`validate_keypair_consistency` field validator: the public key must
equal `derive_public_key(private_key.raw)`; a mismatch raises
`ValueError` (→ `validationError`), while a `CryptographicError` from
derivation propagates unchanged. -/
def mkNostrKeypair (pk : NostrPrivateKey) (pb : NostrPublicKey) :
    Except NostressErr NostrKeypair := do
  let expected ← derive_public_key pk.raw
  if pb.raw = expected then .ok ⟨pk, pb⟩ else .error .validationError

/-- `NostrKeypair.to_format` (models.py): a dict with both keys
converted, modelled as the (private, public) pair of formatted
strings; an exception from either per-key conversion propagates. -/
def NostrKeypair.to_format (kp : NostrKeypair) (format : KeyFormat) :
    Except NostressErr (List Char × List Char) := do
  let pr ← kp.private_key.to_format format
  let pb ← kp.public_key.to_format format
  .ok (pr, pb)

/-- `NostrKeypair.generate` (models.py), with the secure random draw
made explicit as `rand`: generate raw bytes via `generate_keypair` and
build the validated model objects. -/
def NostrKeypair.generate (rand : List Nat) : Except NostressErr NostrKeypair := do
  let (private_raw, public_raw) ← generate_keypair rand
  let pk ← mkNostrPrivateKey private_raw
  let pb ← mkNostrPublicKey public_raw
  mkNostrKeypair pk pb

/-! ## Helper lemmas: hex codec -/

theorem hexDigit_val_space : ∀ d ∈ List.range 16,
    hexCharVal (hexDigitToChar d) = some d ∧
      isASCIISpace (hexDigitToChar d) = false := by
  decide

/-- Characters that are lowercase hex digits `[0-9a-f]`. -/
def isLowerHexDigit (c : Char) : Bool :=
  ('0' ≤ c ∧ c ≤ '9') ∨ ('a' ≤ c ∧ c ≤ 'f')

theorem isLowerHexDigit_hexDigitToChar (d : Nat) :
    isLowerHexDigit (hexDigitToChar d) = true := by
  by_cases hd : d < 16
  · exact (by decide :
      ∀ d ∈ List.range 16, isLowerHexDigit (hexDigitToChar d) = true)
      d (List.mem_range.mpr hd)
  · have h0 : hexDigitToChar d = '0' := by
      unfold hexDigitToChar
      exact List.getD_eq_default _ _ (by
        simp only [List.length, String.toList]
        omega)
    rw [h0]; decide

theorem bytesHex_cons (b : Nat) (t : List Nat) :
    bytesHex (b :: t) =
      hexDigitToChar (b / 16) :: hexDigitToChar (b % 16) :: bytesHex t := by
  simp [bytesHex]

theorem bytesHex_length (bs : List Nat) :
    (bytesHex bs).length = 2 * bs.length := by
  induction bs with
  | nil => rfl
  | cons b t ih => rw [bytesHex_cons]; simp [ih]; omega

theorem mem_bytesHex_isLowerHexDigit (bs : List Nat) :
    ∀ c ∈ bytesHex bs, isLowerHexDigit c = true := by
  intro c hc
  rcases List.mem_flatMap.mp hc with ⟨b, _, hcb⟩
  simp only [List.mem_cons, List.not_mem_nil, or_false] at hcb
  rcases hcb with h | h <;>
    exact h ▸ isLowerHexDigit_hexDigitToChar _

theorem bytesFromHex_bytesHex (bs : List Nat) (h : ∀ b ∈ bs, b < 256) :
    bytesFromHex (bytesHex bs) = some bs := by
  induction bs with
  | nil => rfl
  | cons b t ih =>
    have hb : b < 256 := h b (List.mem_cons_self _ _)
    have hdiv := hexDigit_val_space (b / 16)
      (List.mem_range.mpr (by omega))
    have hmod := hexDigit_val_space (b % 16)
      (List.mem_range.mpr (Nat.mod_lt _ (by omega)))
    have hrec := ih (fun x hx => h x (List.mem_cons_of_mem _ hx))
    rw [bytesHex_cons, bytesFromHex]
    simp only [hdiv.1, hdiv.2, hmod.1, hrec, Bool.false_eq_true, if_false]
    have hbb : b / 16 * 16 + b % 16 = b := by omega
    rw [hbb]

/-- Declarative grammar of the strings accepted by `bytes.fromhex`:
byte pairs of adjacent hex digits, separated by arbitrary ASCII
whitespace. -/
inductive HexPairs : List Char → Prop where
  | nil : HexPairs []
  | ws {c : Char} {rest : List Char} :
      isASCIISpace c = true → HexPairs rest → HexPairs (c :: rest)
  | pair {c1 c2 : Char} {rest : List Char} :
      (hexCharVal c1).isSome → (hexCharVal c2).isSome →
      HexPairs rest → HexPairs (c1 :: c2 :: rest)

theorem isSome_hexCharVal_not_space {c : Char}
    (h : (hexCharVal c).isSome) : isASCIISpace c = false := by
  by_contra hs
  have hs' : isASCIISpace c = true := by
    cases hcs : isASCIISpace c
    · exact absurd hcs hs
    · rfl
  have hnone : hexCharVal c = none := by
    simp only [isASCIISpace, decide_eq_true_eq] at hs'
    rcases hs' with h1 | h1 | h1 | h1 | h1 | h1 <;> subst h1 <;> decide
  rw [hnone] at h
  cases h

theorem bytesFromHex_isSome_iff (s : List Char) :
    (bytesFromHex s).isSome ↔ HexPairs s := by
  constructor
  · intro h
    induction s using bytesFromHex.induct with
    | case1 => exact HexPairs.nil
    | case2 c rest hsp ih =>
      rw [bytesFromHex, if_pos hsp] at h
      exact HexPairs.ws hsp (ih h)
    | case3 c rest hsp hval =>
      simp [bytesFromHex, hsp, hval] at h
    | case4 c hsp hi hval =>
      simp [bytesFromHex, hsp, hval] at h
    | case5 c hsp hi hval c2 rest2 hval2 =>
      simp [bytesFromHex, hsp, hval, hval2] at h
    | case6 c hsp hi hval c2 rest2 lo hval2 hparse ih =>
      simp [bytesFromHex, hsp, hval, hval2, hparse] at h
    | case7 c hsp hi hval c2 rest2 lo hval2 bs hparse ih =>
      exact HexPairs.pair (by rw [hval]; rfl) (by rw [hval2]; rfl)
        (ih (by rw [hparse]; rfl))
  · intro h
    induction h with
    | nil => rfl
    | ws hsp _ ih =>
      rw [bytesFromHex, if_pos hsp]
      exact ih
    | pair h1 h2 _ ih =>
      rcases Option.isSome_iff_exists.mp h1 with ⟨v1, hv1⟩
      rcases Option.isSome_iff_exists.mp h2 with ⟨v2, hv2⟩
      rcases Option.isSome_iff_exists.mp ih with ⟨bs, hbs⟩
      simp [bytesFromHex, isSome_hexCharVal_not_space h1, hv1, hv2, hbs]

theorem bytesFromHex_allHex (s : List Char)
    (hhex : ∀ c ∈ s, (hexCharVal c).isSome) (he : s.length % 2 = 0) :
    ∃ bs, bytesFromHex s = some bs ∧ 2 * bs.length = s.length := by
  induction s using bytesFromHex.induct with
  | case1 => exact ⟨[], rfl, rfl⟩
  | case2 c rest hsp ih =>
    exact absurd hsp
      (by simp [isSome_hexCharVal_not_space (hhex c (List.mem_cons_self _ _))])
  | case3 c rest hsp hval =>
    have := hhex c (List.mem_cons_self _ _)
    rw [hval] at this
    cases this
  | case4 c hsp hi hval =>
    simp at he
  | case5 c hsp hi hval c2 rest2 hval2 =>
    have := hhex c2 (by simp)
    rw [hval2] at this
    cases this
  | case6 c hsp hi hval c2 rest2 lo hval2 hparse ih =>
    have hrest2 : ∀ x ∈ rest2, (hexCharVal x).isSome :=
      fun x hx => hhex x (by simp [hx])
    have he2 : rest2.length % 2 = 0 := by
      simp only [List.length_cons] at he
      omega
    rcases ih hrest2 he2 with ⟨bs, hbs, _⟩
    rw [hparse] at hbs
    cases hbs
  | case7 c hsp hi hval c2 rest2 lo hval2 bs hparse ih =>
    have hrest2 : ∀ x ∈ rest2, (hexCharVal x).isSome :=
      fun x hx => hhex x (by simp [hx])
    have he2 : rest2.length % 2 = 0 := by
      simp only [List.length_cons] at he
      omega
    rcases ih hrest2 he2 with ⟨bs2, hbs2, hlen⟩
    rw [hparse] at hbs2
    rw [Option.some_inj.mp hbs2.symm] at hlen
    refine ⟨(hi * 16 + lo) :: bs, ?_, ?_⟩
    · simp [bytesFromHex, hsp, hval, hval2, hparse]
    · simp only [List.length_cons]
      omega

/-- A 64-character string with two trailing spaces: 62 hex digits
followed by two ASCII spaces. -/
def wsHexStr : List Char :=
  List.replicate 62 'a' ++ [' ', ' ']

/-- Claim C2 (counterexample): `validate_private_key_hex` accepts
`"a" * 62 + "  "`, a 64-character string that is not made of hex
digits only — `bytes.fromhex` tolerates ASCII whitespace, refuting the
claimed "64 hex characters" characterisation. -/
theorem claim_C2_counterexample :
    validate_private_key_hex wsHexStr = true ∧
      ¬(wsHexStr.length = 64 ∧ ∀ c ∈ wsHexStr, (hexCharVal c).isSome) := by
  exact ⟨by decide, by decide⟩

/-- Claim C2 (amended): the hex validity predicates return `True` iff
the string has exactly 64 characters and is a sequence of adjacent
hex-digit pairs separated by arbitrary ASCII whitespace (the exact
grammar of `bytes.fromhex`); both predicates are total Boolean
functions. -/
theorem claim_C2_hex_validators (s : List Char) :
    (validate_private_key_hex s = true ↔ s.length = 64 ∧ HexPairs s) ∧
      (validate_public_key_hex s = true ↔ s.length = 64 ∧ HexPairs s) := by
  unfold validate_private_key_hex validate_public_key_hex
  rw [Bool.and_eq_true, beq_iff_eq, bytesFromHex_isSome_iff]
  exact ⟨Iff.rfl, Iff.rfl⟩

/-- Claim C2 (witness): instantiation of the amended claim on a
concrete all-digits string. -/
theorem claim_C2_witness :
    (List.replicate 64 '0' : List Char).length = 64 ∧
      HexPairs (List.replicate 64 '0') :=
  (claim_C2_hex_validators (List.replicate 64 '0')).1.mp (by decide)

/-- Claim C3 (counterexample): on the 64-character input
`"a" * 62 + "  "` — which is not 64 hex characters — both
`NostrPrivateKey.from_hex` and `NostrPublicKey.from_hex` raise the
pydantic validation error for the 31-byte decoded payload, not
`KeyFormatError` as the claim requires for every ill-formed string. -/
theorem claim_C3_counterexample :
    NostrPrivateKey.from_hex wsHexStr = .error .validationError ∧
      NostrPrivateKey.from_hex wsHexStr ≠ .error .keyFormatError ∧
      NostrPublicKey.from_hex wsHexStr = .error .validationError ∧
      NostrPublicKey.from_hex wsHexStr ≠ .error .keyFormatError ∧
      ¬(wsHexStr.length = 64 ∧ ∀ c ∈ wsHexStr, (hexCharVal c).isSome) := by
  exact ⟨by decide, by decide, by decide, by decide, by decide⟩

/-- Claim C3 (amended): for both key classes, `from_hex` raises
`KeyFormatError` exactly when the string fails the validator (length
64 and `bytes.fromhex` parseable); a string of exactly 64
case-insensitive hex digits decodes to its corresponding 32 bytes; in
the remaining case — 64 characters parseable only thanks to
interspersed whitespace — the decoded payload is shorter than 32 bytes
and the raw-key validation error is raised instead.
`from_hex("g" * 64)` and `from_hex("abc123")` fail with
`KeyFormatError` for both classes. -/
theorem claim_C3_from_hex :
    (∀ s : List Char,
      (NostrPrivateKey.from_hex s = .error .keyFormatError ↔
        ¬(s.length = 64 ∧ (bytesFromHex s).isSome)) ∧
      (NostrPublicKey.from_hex s = .error .keyFormatError ↔
        ¬(s.length = 64 ∧ (bytesFromHex s).isSome)) ∧
      (s.length = 64 → (∀ c ∈ s, (hexCharVal c).isSome) →
        ∃ bs, bytesFromHex s = some bs ∧ bs.length = 32 ∧
          NostrPrivateKey.from_hex s = .ok ⟨bs⟩ ∧
          NostrPublicKey.from_hex s = .ok ⟨bs⟩)) ∧
    NostrPrivateKey.from_hex (List.replicate 64 'g') = .error .keyFormatError ∧
    NostrPublicKey.from_hex (List.replicate 64 'g') = .error .keyFormatError ∧
    NostrPrivateKey.from_hex "abc123".toList = .error .keyFormatError ∧
    NostrPublicKey.from_hex "abc123".toList = .error .keyFormatError := by
  refine ⟨fun s => ⟨?_, ?_, ?_⟩, by decide, by decide, by decide, by decide⟩
  · unfold NostrPrivateKey.from_hex
    cases hv : validate_private_key_hex s with
    | false =>
      simp only [Bool.false_eq_true, if_false]
      unfold validate_private_key_hex at hv
      rw [Bool.and_eq_false_iff] at hv
      constructor
      · intro _ hcontra
        rcases hv with hv | hv
        · exact absurd (beq_iff_eq.mpr hcontra.1) (by simp [hv])
        · rw [hcontra.2] at hv
          cases hv
      · intro _
        trivial
    | true =>
      simp only [if_true]
      unfold validate_private_key_hex at hv
      rw [Bool.and_eq_true, beq_iff_eq] at hv
      rcases Option.isSome_iff_exists.mp hv.2 with ⟨bs, hbs⟩
      rw [hbs]
      constructor
      · intro hcontra
        unfold mkNostrPrivateKey at hcontra
        by_cases h32 : bs.length = 32 <;> simp [h32] at hcontra
      · intro hcontra
        exact absurd ⟨hv.1, rfl⟩ hcontra
  · unfold NostrPublicKey.from_hex
    cases hv : validate_public_key_hex s with
    | false =>
      simp only [Bool.false_eq_true, if_false]
      unfold validate_public_key_hex at hv
      rw [Bool.and_eq_false_iff] at hv
      constructor
      · intro _ hcontra
        rcases hv with hv | hv
        · exact absurd (beq_iff_eq.mpr hcontra.1) (by simp [hv])
        · rw [hcontra.2] at hv
          cases hv
      · intro _
        trivial
    | true =>
      simp only [if_true]
      unfold validate_public_key_hex at hv
      rw [Bool.and_eq_true, beq_iff_eq] at hv
      rcases Option.isSome_iff_exists.mp hv.2 with ⟨bs, hbs⟩
      rw [hbs]
      constructor
      · intro hcontra
        unfold mkNostrPublicKey at hcontra
        by_cases h32 : bs.length = 32 <;> simp [h32] at hcontra
      · intro hcontra
        exact absurd ⟨hv.1, rfl⟩ hcontra
  · intro h64 hhex
    rcases bytesFromHex_allHex s hhex (by omega) with ⟨bs, hbs, hlen⟩
    have h32 : bs.length = 32 := by omega
    have hv : validate_private_key_hex s = true := by
      simp [validate_private_key_hex, h64, hbs]
    refine ⟨bs, hbs, h32, ?_, ?_⟩
    · simp [NostrPrivateKey.from_hex, hv, hbs, mkNostrPrivateKey, h32]
    · simp [NostrPublicKey.from_hex, validate_public_key_hex,
        show validate_private_key_hex s = true from hv, h64, hbs,
        mkNostrPublicKey, h32]

/-- Claim C3 (witness): instantiation on a concrete 64-hex-digit
string. -/
theorem claim_C3_witness :
    ∃ bs, bytesFromHex (List.replicate 64 'a') = some bs ∧
      bs.length = 32 ∧
      NostrPrivateKey.from_hex (List.replicate 64 'a') = .ok ⟨bs⟩ ∧
      NostrPublicKey.from_hex (List.replicate 64 'a') = .ok ⟨bs⟩ :=
  (claim_C3_from_hex.1 (List.replicate 64 'a')).2.2 (by decide) (by decide)

/-- Claim C9: the private-key and public-key hex validators are
extensionally equal — their bodies are character-for-character the
same. -/
theorem claim_C9_validators_extensionally_equal :
    ∀ s : List Char, validate_private_key_hex s = validate_public_key_hex s :=
  fun _ => rfl

/-- Claim C7: on every 32-byte input, hex encoding is total and yields
exactly 64 characters, each a lowercase hex digit, for private and
public keys alike. -/
theorem claim_C7_to_hex_total :
    ∀ bs : List Nat, bs.length = 32 → (∀ b ∈ bs, b < 256) →
      (private_key_to_hex bs).length = 64 ∧
      (∀ c ∈ private_key_to_hex bs, isLowerHexDigit c = true) ∧
      (public_key_to_hex bs).length = 64 ∧
      (∀ c ∈ public_key_to_hex bs, isLowerHexDigit c = true) := by
  intro bs h32 _
  refine ⟨?_, mem_bytesHex_isLowerHexDigit bs, ?_,
    mem_bytesHex_isLowerHexDigit bs⟩ <;>
    simp [private_key_to_hex, public_key_to_hex, bytesHex_length, h32]

/-- Claim C7 (witness): instantiation on the zero key. -/
theorem claim_C7_witness :
    (private_key_to_hex (List.replicate 32 0)).length = 64 ∧
      (∀ c ∈ private_key_to_hex (List.replicate 32 0),
        isLowerHexDigit c = true) ∧
      (public_key_to_hex (List.replicate 32 0)).length = 64 ∧
      (∀ c ∈ public_key_to_hex (List.replicate 32 0),
        isLowerHexDigit c = true) :=
  claim_C7_to_hex_total (List.replicate 32 0) (by decide) (by decide)

/-- Claim C5: hex round trip — decoding the hex encoding of any
32-byte value returns the value, both through the raw parser and
through the model classes, for private and public keys. -/
theorem claim_C5_hex_roundtrip :
    ∀ bs : List Nat, bs.length = 32 → (∀ b ∈ bs, b < 256) →
      bytesFromHex (private_key_to_hex bs) = some bs ∧
      NostrPrivateKey.from_hex (private_key_to_hex bs) = .ok ⟨bs⟩ ∧
      NostrPublicKey.from_hex (public_key_to_hex bs) = .ok ⟨bs⟩ := by
  intro bs h32 hb
  have hparse : bytesFromHex (bytesHex bs) = some bs := bytesFromHex_bytesHex bs hb
  have hlen : (bytesHex bs).length = 64 := by
    rw [bytesHex_length, h32]
  refine ⟨hparse, ?_, ?_⟩
  · simp [NostrPrivateKey.from_hex, validate_private_key_hex,
      private_key_to_hex, hlen, hparse, mkNostrPrivateKey, h32]
  · simp [NostrPublicKey.from_hex, validate_public_key_hex,
      public_key_to_hex, hlen, hparse, mkNostrPublicKey, h32]

/-- Claim C5 (witness): instantiation on the zero key. -/
theorem claim_C5_witness :
    bytesFromHex (private_key_to_hex (List.replicate 32 0)) =
        some (List.replicate 32 0) ∧
      NostrPrivateKey.from_hex (private_key_to_hex (List.replicate 32 0)) =
        .ok ⟨List.replicate 32 0⟩ ∧
      NostrPublicKey.from_hex (public_key_to_hex (List.replicate 32 0)) =
        .ok ⟨List.replicate 32 0⟩ :=
  claim_C5_hex_roundtrip (List.replicate 32 0) (by decide) (by decide)

/-- Claim C1 (counterexample): even on a keypair that passed
construction-time validation (private scalar 1, public key the
generator's x-coordinate), `NostrKeypair.to_format(BOTH)` raises the
generic `ValueError` — `BOTH` is inside the closed enumeration, so the
error branch is not unreachable. -/
theorem claim_C1_counterexample :
    mkNostrKeypair ⟨List.replicate 31 0 ++ [1]⟩ ⟨toBytesBE32 secpGx⟩ =
        .ok ⟨⟨List.replicate 31 0 ++ [1]⟩, ⟨toBytesBE32 secpGx⟩⟩ ∧
      NostrKeypair.to_format
          ⟨⟨List.replicate 31 0 ++ [1]⟩, ⟨toBytesBE32 secpGx⟩⟩ .both =
        .error .valueError := by
  exact ⟨by decide, by decide⟩

/-- Claim C1 (amended): `NostrKeypair.to_format` succeeds for `HEX` and
`BECH32`, returning the {private, public} pair of per-key formatted
strings; for `BOTH` — and hence not only for values outside the closed
enumeration — the per-key dispatcher's fallback raises the generic
value error. -/
theorem claim_C1_to_format_dispatch :
    ∀ kp : NostrKeypair,
      kp.to_format .hex =
        .ok (private_key_to_hex kp.private_key.raw,
          public_key_to_hex kp.public_key.raw) ∧
      kp.to_format .bech32 =
        .ok (private_key_to_bech32 kp.private_key.raw,
          public_key_to_bech32 kp.public_key.raw) ∧
      kp.to_format .both = .error .valueError :=
  fun _ => ⟨rfl, rfl, rfl⟩

/-! ## Helper lemmas: base58 codec -/

theorem natDigitsLEAux_eq_digits (B : Nat) (hB : 2 ≤ B) :
    ∀ fuel n, n ≤ fuel → natDigitsLEAux B fuel n = Nat.digits B n := by
  intro fuel
  induction fuel with
  | zero =>
    intro n hn
    have : n = 0 := by omega
    subst this
    rw [Nat.digits_zero]
    rfl
  | succ f ih =>
    intro n hn
    unfold natDigitsLEAux
    by_cases h0 : n = 0
    · subst h0
      simp
    · rw [if_neg h0, Nat.digits_def' (by omega : 1 < B) (by omega : 0 < n),
        ih (n / B) (by
          have := Nat.div_lt_self (by omega : 0 < n) (by omega : 1 < B)
          omega)]

theorem natToBytesBE_eq (n : Nat) :
    natToBytesBE n = (Nat.digits 256 n).reverse := by
  unfold natToBytesBE
  rw [natDigitsLEAux_eq_digits 256 (by norm_num) n n le_rfl]

theorem natToB58Digits_eq (n : Nat) :
    natToB58Digits n = (Nat.digits 58 n).reverse := by
  unfold natToB58Digits
  rw [natDigitsLEAux_eq_digits 58 (by norm_num) n n le_rfl]

theorem foldl_base_eq_ofDigits (B : Nat) (l : List Nat) :
    ∀ acc, l.foldl (fun a d => a * B + d) acc =
      acc * B ^ l.length + Nat.ofDigits B l.reverse := by
  induction l with
  | nil => intro acc; simp
  | cons d t ih =>
    intro acc
    simp only [List.foldl_cons, List.reverse_cons, List.length_cons]
    rw [ih (acc * B + d), Nat.ofDigits_append]
    simp only [Nat.ofDigits_cons, Nat.ofDigits_nil, List.length_reverse]
    ring

theorem bytesToNatBE_eq_ofDigits (bs : List Nat) :
    bytesToNatBE bs = Nat.ofDigits 256 bs.reverse := by
  unfold bytesToNatBE
  rw [foldl_base_eq_ofDigits]
  simp

theorem natOfB58Digits_natToB58Digits (n : Nat) :
    natOfB58Digits (natToB58Digits n) = n := by
  unfold natOfB58Digits
  rw [natToB58Digits_eq, foldl_base_eq_ofDigits]
  simp [Nat.ofDigits_digits]

theorem digits_bytesToNatBE (bs : List Nat) (hlt : ∀ b ∈ bs, b < 256)
    (hhead : ∀ h : bs ≠ [], bs.head h ≠ 0) :
    Nat.digits 256 (bytesToNatBE bs) = bs.reverse := by
  rw [bytesToNatBE_eq_ofDigits]
  refine Nat.digits_ofDigits 256 (by norm_num) bs.reverse
    (fun x hx => hlt x (List.mem_reverse.mp hx)) ?_
  intro h
  rw [List.getLast_reverse h]
  exact hhead _

theorem b58DigitOfChar_b58CharOfDigit : ∀ d ∈ List.range 58,
    b58DigitOfChar (b58CharOfDigit d) = some d := by
  decide

theorem b58CharOfDigit_ne_one : ∀ d ∈ List.range 58, d ≠ 0 →
    (b58CharOfDigit d == '1') = false := by
  decide

theorem b58DigitsOfChars_map (ds : List Nat) (h : ∀ d ∈ ds, d < 58) :
    b58DigitsOfChars (ds.map b58CharOfDigit) = some ds := by
  induction ds with
  | nil => rfl
  | cons d t ih =>
    simp only [List.map_cons, b58DigitsOfChars]
    rw [b58DigitOfChar_b58CharOfDigit d
        (List.mem_range.mpr (h d (List.mem_cons_self _ _))),
      ih (fun x hx => h x (List.mem_cons_of_mem _ hx))]

theorem dropWhile_replicate_append {α : Type} (p : α → Bool) (a : α)
    (hp : p a = true) (n : Nat) (l : List α) :
    List.dropWhile p (List.replicate n a ++ l) = List.dropWhile p l := by
  induction n with
  | zero => simp
  | succ m ih => simp [List.replicate_succ, List.dropWhile_cons, hp, ih]

theorem replicate_zero_append_dropWhile (bs : List Nat) :
    List.replicate (bs.length - (bs.dropWhile (fun b => b == 0)).length) 0
      ++ bs.dropWhile (fun b => b == 0) = bs := by
  have hz : ∀ x ∈ bs.takeWhile (fun b => b == 0), x = 0 := by
    intro x hx
    simpa using List.mem_takeWhile_imp hx
  have hrep : bs.takeWhile (fun b => b == 0) =
      List.replicate (bs.takeWhile (fun b => b == 0)).length 0 :=
    List.eq_replicate_of_mem hz
  have hl := congrArg List.length
    (List.takeWhile_append_dropWhile (fun b => b == 0) bs)
  rw [List.length_append] at hl
  have hlen : bs.length - (bs.dropWhile (fun b => b == 0)).length =
      (bs.takeWhile (fun b => b == 0)).length := by omega
  rw [hlen, ← hrep, List.takeWhile_append_dropWhile]

theorem b58CharOfDigit_not_ws (d : Nat) :
    isPyWhitespace (b58CharOfDigit d) = false := by
  by_cases hd : d < 58
  · exact (by decide :
      ∀ d ∈ List.range 58, isPyWhitespace (b58CharOfDigit d) = false)
      d (List.mem_range.mpr hd)
  · have h0 : b58CharOfDigit d = '1' := by
      unfold b58CharOfDigit
      exact List.getD_eq_default _ _ (by
        simp only [b58Alphabet, List.length, String.toList]
        omega)
    rw [h0]
    decide

theorem pyRstrip_no_op (s : List Char)
    (h : ∀ c ∈ s, isPyWhitespace c = false) : pyRstrip s = s := by
  unfold pyRstrip
  cases hrev : s.reverse with
  | nil =>
    rw [List.reverse_eq_nil_iff] at hrev
    subst hrev
    rfl
  | cons c t =>
    have hc : isPyWhitespace c = false :=
      h c (by rw [← List.mem_reverse, hrev]; exact List.mem_cons_self _ _)
    rw [List.dropWhile_cons, hc]
    simp only [Bool.false_eq_true, if_false]
    rw [← hrev, List.reverse_reverse]

theorem pyRstrip_encode_shape (z n : Nat) :
    pyRstrip (List.replicate z '1'
        ++ (natToB58Digits n).map b58CharOfDigit) =
      List.replicate z '1' ++ (natToB58Digits n).map b58CharOfDigit := by
  refine pyRstrip_no_op _ ?_
  intro c hc
  rcases List.mem_append.mp hc with h | h
  · rw [List.eq_of_mem_replicate h]
    decide
  · rcases List.mem_map.mp h with ⟨d, -, rfl⟩
    exact b58CharOfDigit_not_ws d

theorem b58decode_encode_core (z n : Nat) :
    b58decode (List.replicate z '1'
        ++ (natToB58Digits n).map b58CharOfDigit) =
      some (List.replicate z 0 ++ natToBytesBE n) := by
  by_cases hn : n = 0
  · subst hn
    rw [natToB58Digits_eq, natToBytesBE_eq, Nat.digits_zero]
    simp only [List.reverse_nil, List.map_nil, List.append_nil]
    unfold b58decode
    rw [pyRstrip_no_op _ (fun c hc => by
      rw [List.eq_of_mem_replicate hc]; decide)]
    rw [List.dropWhile_eq_nil_iff.mpr
      (fun x hx => by rw [List.eq_of_mem_replicate hx]; rfl)]
    simp [b58DigitsOfChars, natOfB58Digits, natToBytesBE_eq]
  · have hds_lt : ∀ d ∈ Nat.digits 58 n, d < 58 :=
      fun d hd => Nat.digits_lt_base (by norm_num) hd
    have hds_ne : Nat.digits 58 n ≠ [] :=
      Nat.digits_ne_nil_iff_ne_zero.mpr hn
    have hrev_ne : (Nat.digits 58 n).reverse ≠ [] := by simpa using hds_ne
    cases hrev : (Nat.digits 58 n).reverse with
    | nil => exact absurd hrev hrev_ne
    | cons d0 drest =>
      have hd0_mem : d0 ∈ Nat.digits 58 n := by
        rw [← List.mem_reverse, hrev]
        exact List.mem_cons_self _ _
      have hd0_ne : d0 ≠ 0 := by
        have h1 : (Nat.digits 58 n).reverse.head? = some d0 := by
          rw [hrev]; rfl
        have h2 : (Nat.digits 58 n).reverse.head? =
            some ((Nat.digits 58 n).getLast hds_ne) := by
          rw [List.head?_eq_head hrev_ne, List.head_reverse]
        rw [Option.some_inj.mp (h1.symm.trans h2)]
        exact Nat.getLast_digit_ne_zero 58 hn
      have hc0 : (b58CharOfDigit d0 == '1') = false :=
        b58CharOfDigit_ne_one d0
          (List.mem_range.mpr (hds_lt d0 hd0_mem)) hd0_ne
      have hstrip : (List.replicate z '1'
          ++ (natToB58Digits n).map b58CharOfDigit).dropWhile
            (fun c => c == '1') =
          (natToB58Digits n).map b58CharOfDigit := by
        rw [dropWhile_replicate_append _ _ rfl z _, natToB58Digits_eq,
          hrev, List.map_cons, List.dropWhile_cons, hc0]
        simp
      have hlen : (List.replicate z '1'
            ++ (natToB58Digits n).map b58CharOfDigit).length -
          ((natToB58Digits n).map b58CharOfDigit).length = z := by
        rw [List.length_append, List.length_replicate]
        omega
      unfold b58decode
      rw [pyRstrip_encode_shape z n]
      rw [hstrip,
        b58DigitsOfChars_map _
          (fun d hd => hds_lt d (List.mem_reverse.mp (by
            rw [natToB58Digits_eq] at hd
            exact hd)))]
      dsimp only
      rw [natOfB58Digits_natToB58Digits, hlen]

theorem b58decode_b58encode (bs : List Nat) (hlt : ∀ b ∈ bs, b < 256) :
    b58decode (b58encode bs) = some bs := by
  unfold b58encode
  rw [b58decode_encode_core]
  have hhead : ∀ h : bs.dropWhile (fun b => b == 0) ≠ [],
      (bs.dropWhile (fun b => b == 0)).head h ≠ 0 := by
    intro h
    have := List.head?_dropWhile_not (fun b => b == 0) bs
    rw [List.head?_eq_head h] at this
    simpa using this
  have hbytes : natToBytesBE (bytesToNatBE (bs.dropWhile (fun b => b == 0))) =
      bs.dropWhile (fun b => b == 0) := by
    rw [natToBytesBE_eq, digits_bytesToNatBE _
      (fun b hb => hlt b ((List.dropWhile_sublist _).mem hb)) hhead,
      List.reverse_reverse]
  rw [hbytes, replicate_zero_append_dropWhile bs]

theorem validate_bech32_key_iff (s pfx : List Char) :
    validate_bech32_key s pfx = true ↔
      (pfx.isPrefixOf s = true ∧
        ∃ bs, b58decode (s.drop pfx.length) = some bs ∧ bs.length = 32) := by
  unfold validate_bech32_key
  rw [Bool.and_eq_true]
  constructor
  · rintro ⟨h1, h2⟩
    refine ⟨h1, ?_⟩
    cases hdec : b58decode (s.drop pfx.length) with
    | none => rw [hdec] at h2; cases h2
    | some bs => rw [hdec] at h2; exact ⟨bs, rfl, by simpa using h2⟩
  · rintro ⟨h1, bs, hdec, hlen⟩
    refine ⟨h1, ?_⟩
    rw [hdec]
    simpa using hlen

theorem validate_bech32_nsec_iff (s : List Char) :
    validate_bech32_key s "nsec".toList = true ↔
      ("nsec".toList.isPrefixOf s = true ∧
        ∃ bs, b58decode (s.drop 4) = some bs ∧ bs.length = 32) := by
  have h4 : ("nsec".toList : List Char).length = 4 := by decide
  rw [← h4]
  exact validate_bech32_key_iff s _

theorem validate_bech32_npub_iff (s : List Char) :
    validate_bech32_key s "npub".toList = true ↔
      ("npub".toList.isPrefixOf s = true ∧
        ∃ bs, b58decode (s.drop 4) = some bs ∧ bs.length = 32) := by
  have h4 : ("npub".toList : List Char).length = 4 := by decide
  rw [← h4]
  exact validate_bech32_key_iff s _

theorem from_bech32_ok_nsec (s : List Char) (bs : List Nat)
    (hpre : "nsec".toList.isPrefixOf s = true)
    (hdec : b58decode (s.drop 4) = some bs) (hlen : bs.length = 32) :
    NostrPrivateKey.from_bech32 s = .ok ⟨bs⟩ := by
  have hv : validate_bech32_key s "nsec".toList = true :=
    (validate_bech32_nsec_iff s).mpr ⟨hpre, bs, hdec, hlen⟩
  unfold NostrPrivateKey.from_bech32
  rw [if_pos hv, hdec]
  simp [mkNostrPrivateKey, hlen]

theorem from_bech32_ok_npub (s : List Char) (bs : List Nat)
    (hpre : "npub".toList.isPrefixOf s = true)
    (hdec : b58decode (s.drop 4) = some bs) (hlen : bs.length = 32) :
    NostrPublicKey.from_bech32 s = .ok ⟨bs⟩ := by
  have hv : validate_bech32_key s "npub".toList = true :=
    (validate_bech32_npub_iff s).mpr ⟨hpre, bs, hdec, hlen⟩
  unfold NostrPublicKey.from_bech32
  rw [if_pos hv, hdec]
  simp [mkNostrPublicKey, hlen]

/-- Claim C4 (counterexample): `from_bech32` accepts
`"nsec" + "1"*32 + " "`, returning the 32-zero-byte key, although the
remainder after the tag contains a character (the trailing space)
outside the base58 alphabet — the base58 library strips trailing
whitespace before decoding, so "remainder not valid base58" does not
always raise `KeyFormatError` as the claim requires. -/
theorem claim_C4_counterexample :
    NostrPrivateKey.from_bech32
        ("nsec".toList ++ (List.replicate 32 '1' ++ [' '])) =
      .ok ⟨List.replicate 32 0⟩ ∧
      b58DigitOfChar ' ' = none ∧
      ' ' ∈ ("nsec".toList ++ (List.replicate 32 '1' ++ [' '])).drop 4 := by
  exact ⟨by decide, by decide, by decide⟩

/-- Claim C4 (amended): pseudo-bech32 decoding raises `KeyFormatError`
exactly when the expected tag is not a prefix, or the remainder —
after the base58 library strips trailing whitespace — is not valid
base58, or the decoded payload is not 32 bytes; otherwise it returns
the payload (`b58decode` here is the library's decoder, whitespace
stripping included).  An npub-tagged string given to the nsec decoder
always fails with `KeyFormatError`, and a trailing space after a valid
base58 remainder is tolerated. -/
theorem claim_C4_from_bech32 :
    (∀ s : List Char,
      (NostrPrivateKey.from_bech32 s = .error .keyFormatError ↔
        ¬("nsec".toList.isPrefixOf s = true ∧
          ∃ bs, b58decode (s.drop 4) = some bs ∧ bs.length = 32)) ∧
      (∀ bs, "nsec".toList.isPrefixOf s = true →
        b58decode (s.drop 4) = some bs → bs.length = 32 →
        NostrPrivateKey.from_bech32 s = .ok ⟨bs⟩)) ∧
    (∀ s : List Char,
      (NostrPublicKey.from_bech32 s = .error .keyFormatError ↔
        ¬("npub".toList.isPrefixOf s = true ∧
          ∃ bs, b58decode (s.drop 4) = some bs ∧ bs.length = 32)) ∧
      (∀ bs, "npub".toList.isPrefixOf s = true →
        b58decode (s.drop 4) = some bs → bs.length = 32 →
        NostrPublicKey.from_bech32 s = .ok ⟨bs⟩)) ∧
    (∀ s : List Char, "npub".toList.isPrefixOf s = true →
      NostrPrivateKey.from_bech32 s = .error .keyFormatError) ∧
    NostrPrivateKey.from_bech32
        ("nsec".toList ++ (List.replicate 32 '1' ++ [' '])) =
      .ok ⟨List.replicate 32 0⟩ := by
  have hpriv2 := from_bech32_ok_nsec
  have hpub2 := from_bech32_ok_npub
  have hpriv1 : ∀ s : List Char,
      NostrPrivateKey.from_bech32 s = .error .keyFormatError ↔
        ¬("nsec".toList.isPrefixOf s = true ∧
          ∃ bs, b58decode (s.drop 4) = some bs ∧ bs.length = 32) := by
    intro s
    by_cases hv : validate_bech32_key s "nsec".toList = true
    · rcases (validate_bech32_nsec_iff s).mp hv with ⟨hpre, bs, hdec, hlen⟩
      rw [hpriv2 s bs hpre hdec hlen]
      constructor
      · intro h
        cases h
      · intro hc
        exact absurd ⟨hpre, bs, hdec, hlen⟩ hc
    · unfold NostrPrivateKey.from_bech32
      rw [if_neg hv]
      exact ⟨fun _ hc => hv ((validate_bech32_nsec_iff s).mpr hc),
        fun _ => rfl⟩
  refine ⟨fun s => ⟨hpriv1 s, hpriv2 s⟩, fun s => ⟨?_, hpub2 s⟩, ?_,
    by decide⟩
  · by_cases hv : validate_bech32_key s "npub".toList = true
    · rcases (validate_bech32_npub_iff s).mp hv with ⟨hpre, bs, hdec, hlen⟩
      rw [hpub2 s bs hpre hdec hlen]
      constructor
      · intro h
        cases h
      · intro hc
        exact absurd ⟨hpre, bs, hdec, hlen⟩ hc
    · unfold NostrPublicKey.from_bech32
      rw [if_neg hv]
      exact ⟨fun _ hc => hv ((validate_bech32_npub_iff s).mpr hc),
        fun _ => rfl⟩
  · intro s hnpub
    refine (hpriv1 s).mpr ?_
    rintro ⟨hnsec, -⟩
    rw [List.isPrefixOf_iff_prefix, List.prefix_iff_eq_take] at hnpub hnsec
    have h44 : ("npub".toList : List Char).length =
        ("nsec".toList : List Char).length := by decide
    rw [h44] at hnpub
    exact absurd (hnpub.trans hnsec.symm) (by decide)

/-- Claim C4 (witness): decoding the encoding of the zero key, and the
npub-under-nsec rejection on a concrete string. -/
theorem claim_C4_witness :
    NostrPrivateKey.from_bech32
        ("nsec".toList ++ List.replicate 32 '1') =
        .ok ⟨List.replicate 32 0⟩ ∧
      NostrPrivateKey.from_bech32
        ("npub".toList ++ List.replicate 32 '1') =
        .error .keyFormatError := by
  constructor
  · exact (claim_C4_from_bech32.1 _).2 (List.replicate 32 0)
      (by decide) (by decide) (by decide)
  · exact claim_C4_from_bech32.2.2.1 _ (by decide)

/-- Claim C6: pseudo-bech32 round trip — for every 32-byte value,
decoding its nsec (resp. npub) encoding with the matching expected tag
returns the value, through the raw codec and through the model
classes. -/
theorem claim_C6_bech32_roundtrip :
    ∀ bs : List Nat, bs.length = 32 → (∀ b ∈ bs, b < 256) →
      b58decode ((private_key_to_bech32 bs).drop 4) = some bs ∧
      NostrPrivateKey.from_bech32 (private_key_to_bech32 bs) = .ok ⟨bs⟩ ∧
      NostrPublicKey.from_bech32 (public_key_to_bech32 bs) = .ok ⟨bs⟩ := by
  intro bs h32 hb
  have hdec := b58decode_b58encode bs hb
  have hdropn : (private_key_to_bech32 bs).drop 4 = b58encode bs := by
    unfold private_key_to_bech32
    rw [show (4 : Nat) = ("nsec".toList : List Char).length from by decide]
    exact List.drop_left _ _
  have hdropp : (public_key_to_bech32 bs).drop 4 = b58encode bs := by
    unfold public_key_to_bech32
    rw [show (4 : Nat) = ("npub".toList : List Char).length from by decide]
    exact List.drop_left _ _
  have hpren : ("nsec".toList : List Char).isPrefixOf
      (private_key_to_bech32 bs) = true := by
    rw [List.isPrefixOf_iff_prefix]
    exact List.prefix_append _ _
  have hprep : ("npub".toList : List Char).isPrefixOf
      (public_key_to_bech32 bs) = true := by
    rw [List.isPrefixOf_iff_prefix]
    exact List.prefix_append _ _
  refine ⟨by rw [hdropn]; exact hdec, ?_, ?_⟩
  · exact from_bech32_ok_nsec _ bs hpren (by rw [hdropn]; exact hdec) h32
  · exact from_bech32_ok_npub _ bs hprep (by rw [hdropp]; exact hdec) h32

/-- Claim C6 (witness): instantiation on the zero key. -/
theorem claim_C6_witness :
    b58decode ((private_key_to_bech32 (List.replicate 32 0)).drop 4) =
        some (List.replicate 32 0) ∧
      NostrPrivateKey.from_bech32
          (private_key_to_bech32 (List.replicate 32 0)) =
        .ok ⟨List.replicate 32 0⟩ ∧
      NostrPublicKey.from_bech32
          (public_key_to_bech32 (List.replicate 32 0)) =
        .ok ⟨List.replicate 32 0⟩ :=
  claim_C6_bech32_roundtrip (List.replicate 32 0) (by decide) (by decide)

/-! ## Helper lemmas: key derivation -/

theorem pointXBytes_length (p : ECPoint) : (pointXBytes p).length = 32 := by
  cases p with
  | inf => simp [pointXBytes]
  | affine x y => simp [pointXBytes, toBytesBE32]

theorem except_bind_ok {ε α β : Type} (x : Except ε α)
    (f : α → Except ε β) (b : β) (h : (x >>= f) = .ok b) :
    ∃ a, x = .ok a ∧ f a = .ok b := by
  cases x with
  | error e => simp [Bind.bind, Except.bind] at h
  | ok a => exact ⟨a, rfl, by simpa [Bind.bind, Except.bind] using h⟩

/-- Claim C8: keypair consistency — every keypair accepted by the
model validator, and every keypair produced by `generate`, satisfies
`derive_public_key(private) = public`.  The invariant is checked at
construction time; model objects are immutable values, so it cannot be
invalidated afterwards. -/
theorem claim_C8_keypair_consistency :
    (∀ (pk : NostrPrivateKey) (pb : NostrPublicKey) (kp : NostrKeypair),
      mkNostrKeypair pk pb = .ok kp →
        derive_public_key kp.private_key.raw = .ok kp.public_key.raw) ∧
    (∀ (rand : List Nat) (kp : NostrKeypair),
      NostrKeypair.generate rand = .ok kp →
        derive_public_key kp.private_key.raw = .ok kp.public_key.raw) := by
  have hmk : ∀ (pk : NostrPrivateKey) (pb : NostrPublicKey) (kp : NostrKeypair),
      mkNostrKeypair pk pb = .ok kp →
        derive_public_key kp.private_key.raw = .ok kp.public_key.raw := by
    intro pk pb kp h
    unfold mkNostrKeypair at h
    rcases except_bind_ok _ _ _ h with ⟨expected, hd, h2⟩
    by_cases he : pb.raw = expected
    · rw [if_pos he] at h2
      injection h2 with h2
      subst h2
      rw [hd, he]
    · rw [if_neg he] at h2
      cases h2
  refine ⟨hmk, ?_⟩
  intro rand kp h
  unfold NostrKeypair.generate generate_keypair at h
  rcases except_bind_ok _ _ _ h with ⟨pair, hgen, h2⟩
  rcases except_bind_ok _ _ _ h2 with ⟨pk, hpk, h3⟩
  rcases except_bind_ok _ _ _ h3 with ⟨pbk, hpbk, h4⟩
  exact hmk pk pbk kp h4

/-- Claim C8 (witness): the keypair with private scalar 1 and the
generator's x-coordinate as public key passes construction and
satisfies the invariant. -/
theorem claim_C8_witness :
    derive_public_key
        (NostrKeypair.mk ⟨List.replicate 31 0 ++ [1]⟩
          ⟨toBytesBE32 secpGx⟩).private_key.raw =
      .ok (NostrKeypair.mk ⟨List.replicate 31 0 ++ [1]⟩
          ⟨toBytesBE32 secpGx⟩).public_key.raw :=
  claim_C8_keypair_consistency.1 ⟨List.replicate 31 0 ++ [1]⟩
    ⟨toBytesBE32 secpGx⟩ _ (by decide)

/-- Claim C10: `derive_public_key` has no 32-byte length precondition —
it succeeds with a 32-byte public key exactly when the big-endian value
of the input is a valid secp256k1 scalar (in `[1, order)`), and raises
`CryptographicError` exactly otherwise; in particular the 5-byte input
`00 00 00 00 01` succeeds while the all-zero 32-byte input fails. -/
theorem claim_C10_derive_no_length_precondition :
    (∀ bs : List Nat,
      ((∃ pub, derive_public_key bs = .ok pub ∧ pub.length = 32) ↔
        (1 ≤ bytesToNatBE bs ∧ bytesToNatBE bs < secpN)) ∧
      (derive_public_key bs = .error .cryptographicError ↔
        ¬(1 ≤ bytesToNatBE bs ∧ bytesToNatBE bs < secpN))) ∧
    (∃ pub, derive_public_key [0, 0, 0, 0, 1] = .ok pub ∧ pub.length = 32) ∧
    derive_public_key (List.replicate 32 0) = .error .cryptographicError := by
  have hmain : ∀ bs : List Nat,
      ((∃ pub, derive_public_key bs = .ok pub ∧ pub.length = 32) ↔
        (1 ≤ bytesToNatBE bs ∧ bytesToNatBE bs < secpN)) ∧
      (derive_public_key bs = .error .cryptographicError ↔
        ¬(1 ≤ bytesToNatBE bs ∧ bytesToNatBE bs < secpN)) := by
    intro bs
    unfold derive_public_key
    by_cases hk : 1 ≤ bytesToNatBE bs ∧ bytesToNatBE bs < secpN
    · rw [if_pos hk]
      constructor
      · constructor
        · exact fun _ => hk
        · intro _
          exact ⟨pointXBytes (scalarMul (bytesToNatBE bs) secpG), rfl,
            pointXBytes_length _⟩
      · constructor
        · intro h
          cases h
        · intro hc
          exact absurd hk hc
    · rw [if_neg hk]
      refine ⟨⟨?_, fun h => absurd h hk⟩, ⟨fun _ => hk, fun _ => rfl⟩⟩
      rintro ⟨pub, hp, -⟩
      cases hp
  exact ⟨hmain, (hmain [0, 0, 0, 0, 1]).1.mpr (by decide), by decide⟩

/-- Claim C10 (witness): instantiation of the general equivalence on
the 1-byte input `05`. -/
theorem claim_C10_witness :
    ∃ pub, derive_public_key [5] = .ok pub ∧ pub.length = 32 :=
  (claim_C10_derive_no_length_precondition.1 [5]).1.mpr (by decide)
